import Mathlib

/-!
Verification development for the schnetpack training-run orchestrator
(`src/schnetpack/train/trainer.py`, class `Trainer`).

Modelling conventions:
* opaque serialized blobs (model state, optimizer state, per-hook state) are
  naturals;
* scalar losses and predictions are rationals; Python's `float("inf")` is
  `none` in an `Option ℚ`;
* the checkpoint directory is an association list from epoch number to the
  serialized `state_dict` (file `checkpoint-<epoch>.pth.tar` is keyed by its
  epoch, and `torch.save` to an existing name overwrites it);
* the epoch/batch control flow is modelled as a pure function that returns the
  sequence of externally observable events (hook invocations, optimizer steps,
  checkpoint writes); hook side effects on the shared stop flag are supplied by
  boolean oracles giving the flag's value at each of the three poll sites.
-/

set_option maxHeartbeats 1000000

namespace Schnet

/-- The dictionary produced by the `state_dict` property getter
(trainer.py lines 100-114): epoch, step, best_loss, best_losses, the
optimizer blob, the per-hook state blobs (registration order) and the model
blob. -/
structure StateDict where
  epoch : ℕ
  step : ℕ
  best_loss : Option ℚ
  best_losses : List ℚ
  optimizer : ℕ
  model : ℕ
  hooks : List ℕ
deriving DecidableEq

/-- In-memory trainer attributes relevant to checkpointing and resume.
`epoch_losses` (the ensemble prediction history) is wrapped in `Option`:
`none` models the attribute never having been assigned — the restore path of
`__init__` (lines 66-67) does not set it, only the fresh path (line 71) does. -/
structure Trainer where
  epoch : ℕ
  step : ℕ
  best_loss : Option ℚ
  best_losses : List ℚ
  epoch_losses : Option (List (List ℚ))
  optimizer : ℕ
  model : ℕ
  hooks : List ℕ
deriving DecidableEq

/-- The `state_dict` property getter (lines 100-114). -/
def state_dict (t : Trainer) : StateDict :=
  { epoch := t.epoch
    step := t.step
    best_loss := t.best_loss
    best_losses := t.best_losses
    optimizer := t.optimizer
    model := t.model
    hooks := t.hooks }

/-- The effect of `for h, s in zip(self.hooks, xs): h.state_dict = s`:
the first `min` hooks receive the zipped states, the rest keep theirs. -/
def zipAssign (cur upd : List ℕ) : List ℕ :=
  ((cur.zip upd).map Prod.snd) ++ cur.drop upd.length

/-- The `state_dict` property setter (lines 116-126).  Epoch, step, losses,
optimizer blob and model blob are taken from the `sd` argument.  Line 125 then
zips the hooks with `self.state_dict["hooks"]` — the property GETTER, i.e. the
hooks' own current states — rather than with `state_dict["hooks"]` from the
argument, so each hook is assigned its own current state back. -/
def load_state_dict (t : Trainer) (sd : StateDict) : Trainer :=
  let t1 : Trainer :=
    { t with
      epoch := sd.epoch
      step := sd.step
      best_loss := sd.best_loss
      best_losses := sd.best_losses
      optimizer := sd.optimizer
      model := sd.model }
  { t1 with hooks := zipAssign t1.hooks (state_dict t1).hooks }

/-- The checkpoint directory: one entry per `checkpoint-<epoch>.pth.tar` file. -/
abbrev Disk := List (ℕ × StateDict)

/-- `torch.save(self.state_dict, chkpt)` (line 132): writes the file named by
the epoch, overwriting a file of the same name if present. -/
def writeCkpt (disk : Disk) (e : ℕ) (sd : StateDict) : Disk :=
  (e, sd) :: disk.filter (fun p => p.1 ≠ e)

/-- Retention enforcement (lines 134-139): if more than `keepN` checkpoint
files exist, the loop removes the files at `sidx[: -keep_n_checkpoints]` —
ascending epoch order minus the last `keepN` entries.  For `keepN ≥ 1` that
deletes the lowest epochs until exactly the `keepN` highest remain, i.e.
exactly the files with fewer than `keepN` strictly greater epochs survive
(epoch numbers on disk are pairwise distinct, one per file name).  For
`keepN = 0`, Python's `[:-0]` is the empty slice `[:0]`, so the loop removes
nothing and every file is retained. -/
def pruneCkpts (keepN : ℕ) (disk : Disk) : Disk :=
  if keepN < disk.length then
    if keepN = 0 then disk
    else disk.filter (fun p => (disk.filter (fun q => p.1 < q.1)).length < keepN)
  else disk

/-- `store_checkpoint` (lines 128-139): first write the new epoch-tagged file,
then prune old ones. -/
def store_checkpoint (keepN : ℕ) (t : Trainer) (disk : Disk) : Disk :=
  pruneCkpts keepN (writeCkpt disk t.epoch (state_dict t))

/-- Epoch selected by `restore_checkpoint` when none is given: the maximum
epoch among the stored files (lines 142-149). -/
def latestEpoch (disk : Disk) : ℕ :=
  (disk.map Prod.fst).foldr max 0

/-- Reading the checkpoint file of a given epoch. -/
def lookupCkpt (disk : Disk) (e : ℕ) : Option StateDict :=
  (disk.find? (fun p => p.1 == e)).map Prod.snd

/-- `restore_checkpoint` (lines 141-154): pick the epoch (latest when
unspecified), load the file, and assign it through the `state_dict` setter.
`none` is returned when the file is absent (`torch.load` raises). -/
def restore_checkpoint (t : Trainer) (disk : Disk) (epoch : Option ℕ) :
    Option Trainer :=
  let e := epoch.getD (latestEpoch disk)
  (lookupCkpt disk e).map (load_state_dict t)

/-- A just-constructed trainer before any attribute is set by restore: the
hooks carry their freshly registered states, the optimizer and model carry the
objects passed to `__init__`, and `epoch_losses` is unassigned (`none`). -/
def blankTrainer (freshHooks : List ℕ) (opt mdl : ℕ) : Trainer :=
  { epoch := 0
    step := 0
    best_loss := none
    best_losses := []
    epoch_losses := none
    optimizer := opt
    model := mdl
    hooks := freshHooks }

/-- `__init__` when the checkpoint directory already exists (lines 66-67):
`restore_checkpoint()` is called with no explicit epoch and nothing else is
initialized — in particular `epoch_losses` is never assigned on this path. -/
def initExisting (freshHooks : List ℕ) (opt mdl : ℕ) (disk : Disk) :
    Option Trainer :=
  restore_checkpoint (blankTrainer freshHooks opt mdl) disk none

/-- A sequence of `store_checkpoint` calls on successive trainer states. -/
def runStores (keepN : ℕ) (ts : List Trainer) (disk : Disk) : Disk :=
  ts.foldl (fun d t => store_checkpoint keepN t d) disk

/-- `calc_pred` (lines 156-170).  `preds` collects the current prediction and
then `epoch_losses[i][batch_num]` for `i in range(lene - 1, lene2, -1)` where
`lene2` is `-1` when `lene < remember` and `lene - remember` otherwise; the
loop therefore reads `lene` history entries in the first case and
`remember - 1` in the second.  The result is the arithmetic mean. -/
def calc_pred (prediction : ℚ) (epoch_losses : List (List ℚ))
    (batch_num : ℕ) (remember : ℕ) : ℚ :=
  let lene := epoch_losses.length
  let hc := if lene < remember then lene else remember - 1
  let preds := prediction ::
    (List.range hc).map (fun j => (epoch_losses.get! (lene - 1 - j)).get! batch_num)
  preds.sum / (preds.length : ℚ)

/-- The prediction written back into `val_result` in ensemble mode
(lines 276-285): epoch 1 passes the raw prediction through, later epochs go
through `calc_pred`. -/
def reportedPred (epoch : ℕ) (prediction : ℚ) (epoch_losses : List (List ℚ))
    (batch_num : ℕ) (remember : ℕ) : ℚ :=
  if epoch = 1 then prediction
  else calc_pred prediction epoch_losses batch_num remember

/-- The ensemble history update after a validation pass (lines 323-324):
`self.epoch_losses.append(batch_losses)` — an append, with no removal of
older epochs anywhere in the class. -/
def updateHistory (epoch_losses : List (List ℚ)) (batch_losses : List ℚ) :
    List (List ℚ) :=
  epoch_losses ++ [batch_losses]

/-- Running maximum scan used to model `np.argmax`: walk the remaining list
with the index of the next element and the best (index, value) so far,
updating only on a strictly larger value, so ties keep the earliest index. -/
def argmaxGo : List ℚ → ℕ → ℕ × ℚ → ℕ × ℚ
  | [], _, best => best
  | x :: xs, cur, (bi, bv) =>
    if bv < x then argmaxGo xs (cur + 1) (cur, x)
    else argmaxGo xs (cur + 1) (bi, bv)

/-- `np.argmax` on a list of scalars: index of the first maximal element
(0 on the empty list, where NumPy would raise). -/
def argmaxIdx : List ℚ → ℕ
  | [] => 0
  | x :: xs => (argmaxGo xs 1 (0, x)).1

/-- The ensemble best-model bookkeeping after a validation pass
(lines 304-314).  Returns the new `best_losses` together with the slot index
the model is persisted to (`none` when the epoch's model is discarded).
Below capacity the loss is appended and the model saved to slot
`len(best_losses) - 1` after the append; at capacity the `np.argmax` slot is
replaced in place iff its loss is strictly greater than the new one. -/
def updateBest (remember : ℕ) (best_losses : List ℚ) (val_loss : ℚ) :
    List ℚ × Option ℕ :=
  if best_losses.length < remember then
    (best_losses ++ [val_loss], some best_losses.length)
  else
    let bad_loss := argmaxIdx best_losses
    if best_losses.get! bad_loss > val_loss then
      (best_losses.set bad_loss val_loss, some bad_loss)
    else (best_losses, none)

/-- The `on_train_failed` notification loop: each entry is `none` when that
hook's callback returns normally and `some err` when it raises `err`.  Returns
the first error raised inside the loop (if any) and the indices of the hooks
that were actually invoked, in registration order. -/
def notifyGo : ℕ → List (Option ℕ) → Option ℕ × List ℕ
  | _, [] => (none, [])
  | i, h :: t =>
    match h with
    | some err => (some err, [i])
    | none =>
      let r := notifyGo (i + 1) t
      (r.1, i :: r.2)

/-- Invoking `on_train_failed` on every hook starting from index 0. -/
def notifyFailed (hs : List (Option ℕ)) : Option ℕ × List ℕ :=
  notifyGo 0 hs

/-- The `except` clause of `train` (lines 339-343): run the notification loop,
then `raise e`.  The loop is not guarded, so an error raised by a hook
propagates out of the handler instead of the original one; otherwise the
original error is re-raised.  Returns the error that reaches the caller and
the hook indices notified. -/
def failPath (hs : List (Option ℕ)) (orig : ℕ) : ℕ × List ℕ :=
  let r := notifyFailed hs
  match r.1 with
  | some err => (err, r.2)
  | none => (orig, r.2)

/-- Externally observable events of one training run, in program order. -/
inductive Ev : Type
  | trainBegin : Ev
  | epochBegin : ℕ → Ev
  | batchBegin : ℕ → ℕ → Ev
  | forwardB : ℕ → ℕ → Ev
  | optStep : ℕ → ℕ → Ev
  | stepInc : ℕ → ℕ → Ev
  | batchEnd : ℕ → ℕ → Ev
  | resetAcc : ℕ → ℕ → Ev
  | storeCkpt : ℕ → Ev
  | valBegin : ℕ → Ev
  | valEnd : ℕ → Ev
  | epochEnd : ℕ → Ev
  | trainEnds : Ev
deriving DecidableEq

/-- Loop-controller state: completed-epoch counter, optimizer-step counter and
the shared stop flag. -/
structure LoopSt where
  epoch : ℕ
  step : ℕ
  stop : Bool
deriving DecidableEq

/-- Concatenation of per-batch event blocks. -/
def concatMap (f : ℕ → List Ev) : List ℕ → List Ev
  | [] => []
  | b :: rest => f b ++ concatMap f rest

/-- The training batch loop of one epoch (lines 211-245) over the remaining
batch indices.  `A` is `n_acc_steps`, `B` is `len(train_iter)`, `step_num` the
accumulation counter before the current batch.  Per batch: `on_batch_begin`,
forward/backward; when the incremented counter reaches `A` or the batch is the
last, `optimizer.step()`, counter reset, `self.step += 1`, `on_batch_end`, the
stop-flag poll (`stopO b` is the flag's value there) and — only when not
stopping — the loss/gradient reset before the next batch. -/
def batchGo (A B e : ℕ) (stopO : ℕ → Bool) :
    List ℕ → ℕ → LoopSt → LoopSt × List Ev
  | [], _, st => (st, [])
  | b :: rest, step_num, st =>
    let evs0 := [Ev.batchBegin e b, Ev.forwardB e b]
    if step_num + 1 = A ∨ b = B then
      let st1 : LoopSt := { st with step := st.step + 1 }
      if stopO b then
        ({ st1 with stop := true },
         evs0 ++ [Ev.optStep e b, Ev.stepInc e b, Ev.batchEnd e b])
      else
        let r := batchGo A B e stopO rest 0 st1
        (r.1, evs0 ++ [Ev.optStep e b, Ev.stepInc e b, Ev.batchEnd e b,
                       Ev.resetAcc e b] ++ r.2)
    else
      let r := batchGo A B e stopO rest (step_num + 1) st
      (r.1, evs0 ++ r.2)

/-- Static configuration: `n_acc_steps`, number of training batches,
`checkpoint_interval`, `validation_interval`. -/
structure Cfg where
  A : ℕ
  B : ℕ
  ckptInt : ℕ
  valInt : ℕ

/-- Stop-flag oracles: the flag's value at each poll site (set by hooks during
`on_epoch_begin`, observed at the post-step poll, or set by validation-side or
`on_epoch_end` hooks before the end-of-epoch poll). -/
structure Orc where
  stopAtEpochBegin : ℕ → Bool
  stopAtBatchEnd : ℕ → ℕ → Bool
  stopAtEpochEnd : ℕ → Bool

/-- One iteration of the epoch loop (lines 190-330).  Returns the new state,
the events of the iteration, and whether the loop breaks.  The epoch counter
is incremented first; if the stop flag is set after `on_epoch_begin` it is
decremented back and the loop breaks with no batch processed.  Otherwise the
batch loop runs, a checkpoint is stored when `epoch % checkpoint_interval`
is 0, validation runs when `epoch % validation_interval` is 0 or the stop flag
is set, `on_epoch_end` fires, and the loop breaks iff the flag is set at
line 329. -/
def epochIter (cfg : Cfg) (orc : Orc) (st : LoopSt) : LoopSt × List Ev × Bool :=
  let e := st.epoch + 1
  if orc.stopAtEpochBegin e then
    ({ epoch := e - 1, step := st.step, stop := true }, [Ev.epochBegin e], true)
  else
    let r := batchGo cfg.A cfg.B e (orc.stopAtBatchEnd e)
      (List.range' 1 cfg.B) 0 { epoch := e, step := st.step, stop := st.stop }
    let cevs := if e % cfg.ckptInt = 0 then [Ev.storeCkpt e] else []
    let vevs := if e % cfg.valInt = 0 ∨ r.1.stop = true
      then [Ev.valBegin e, Ev.valEnd e] else []
    let st3 : LoopSt :=
      { epoch := r.1.epoch, step := r.1.step
        stop := r.1.stop || orc.stopAtEpochEnd e }
    (st3, Ev.epochBegin e :: (r.2 ++ cevs ++ vevs ++ [Ev.epochEnd e]), st3.stop)

/-- The `for _ in range(n_epochs)` loop (lines 190-330): run epoch iterations
until the count is exhausted or an iteration breaks. -/
def trainLoop (cfg : Cfg) (orc : Orc) : ℕ → LoopSt → LoopSt × List Ev
  | 0, st => (st, [])
  | n + 1, st =>
    let r := epochIter cfg orc st
    if r.2.2 then (r.1, r.2.1)
    else
      let r2 := trainLoop cfg orc n r.1
      (r2.1, r.2.1 ++ r2.2)

/-- `train` without an exception (lines 182-337): clear the stop flag, invoke
`on_train_begin`, run the epoch loop, and afterwards — whether the loop
exhausted its range or was left by `break` — invoke `on_train_ends` on all
hooks and store one final checkpoint at the current epoch. -/
def trainModel (cfg : Cfg) (orc : Orc) (nEpochs : ℕ) (st : LoopSt) :
    LoopSt × List Ev :=
  let r := trainLoop cfg orc nEpochs { epoch := st.epoch, step := st.step, stop := false }
  (r.1, (Ev.trainBegin :: r.2) ++ [Ev.trainEnds, Ev.storeCkpt r.1.epoch])

/-- Concrete trainer used for the checkpoint round-trip scenario: checkpointed
at epoch 1 with hook state blob 5. -/
def t0ck : Trainer :=
  { epoch := 1
    step := 4
    best_loss := some 2
    best_losses := [2]
    epoch_losses := some [[1]]
    optimizer := 11
    model := 12
    hooks := [5] }

/-- Concrete ensemble-mode trainer interrupted after the epoch-2 checkpoint:
hook state blob 9, two epochs of prediction history. -/
def tRun : Trainer :=
  { epoch := 2
    step := 8
    best_loss := some 1
    best_losses := [1]
    epoch_losses := some [[3], [4]]
    optimizer := 21
    model := 22
    hooks := [9] }

/-- Freshly initialized trainer (lines 69-75), which stores at epoch 0. -/
def tE0 : Trainer :=
  { epoch := 0
    step := 0
    best_loss := none
    best_losses := []
    epoch_losses := some []
    optimizer := 0
    model := 0
    hooks := [] }

/-- Small configuration for concrete runs: one batch, accumulation 1,
checkpoint every 10 epochs, validation every epoch. -/
def cfg1 : Cfg := { A := 1, B := 1, ckptInt := 10, valInt := 1 }

/-- Oracle that sets the stop flag during every `on_epoch_begin`. -/
def orcAlwaysStop : Orc :=
  { stopAtEpochBegin := fun _ => true
    stopAtBatchEnd := fun _ _ => false
    stopAtEpochEnd := fun _ => false }

/-- Oracle that sets the stop flag during `on_epoch_begin` of epoch 1 only. -/
def orcStop1 : Orc :=
  { stopAtEpochBegin := fun e => decide (e = 1)
    stopAtBatchEnd := fun _ _ => false
    stopAtEpochEnd := fun _ => false }

end Schnet

namespace Schnet

/-- C1 (code bug witness): checkpoint round-trip does not reproduce the hook
states.  The checkpoint stored at epoch 1 holds hook blob 5, yet after the
hook's state moved on to 7, `restore_checkpoint` returns a trainer whose hook
state is still 7 — the scalar fields (epoch, step) are restored from the file,
but the setter's line 125 reads `self.state_dict["hooks"]` (the getter) instead
of the loaded dictionary, so the stored blob is never routed back. -/
theorem hook_state_not_restored :
    (lookupCkpt (store_checkpoint 3 t0ck []) 1).map StateDict.hooks = some [5]
    ∧ (restore_checkpoint { t0ck with hooks := [7] } (store_checkpoint 3 t0ck []) none).map
        Trainer.hooks = some [7]
    ∧ (restore_checkpoint { t0ck with hooks := [7] } (store_checkpoint 3 t0ck []) none).map
        Trainer.epoch = some t0ck.epoch
    ∧ (restore_checkpoint { t0ck with hooks := [7] } (store_checkpoint 3 t0ck []) none).map
        Trainer.step = some t0ck.step
    ∧ ([7] : List ℕ) ≠ [5] := by decide

/-- C2 (code bug witness): resuming from an existing checkpoint directory does
not reproduce the interrupted run's state.  The restored trainer gets the
stored epoch and step, but its hooks keep their freshly registered states
(`[0]`, not the stored `[9]`), and `epoch_losses` is never assigned on the
restore path (`none`), while the uninterrupted run carries the two epochs of
ensemble prediction history — so the continued trajectory cannot match. -/
theorem resume_divergence :
    (initExisting [0] 21 22 (store_checkpoint 3 tRun [])).map Trainer.epoch = some tRun.epoch
    ∧ (initExisting [0] 21 22 (store_checkpoint 3 tRun [])).map Trainer.step = some tRun.step
    ∧ (initExisting [0] 21 22 (store_checkpoint 3 tRun [])).map Trainer.hooks = some [0]
    ∧ ([0] : List ℕ) ≠ tRun.hooks
    ∧ (initExisting [0] 21 22 (store_checkpoint 3 tRun [])).map Trainer.epoch_losses
        = some none
    ∧ tRun.epoch_losses = some [[3], [4]] := by decide

/-- C3 counterexample: two `store_checkpoint` calls at the same epoch (the
fresh trainer stores at epoch 0; a `train` call with zero epochs stores at
epoch 0 again) leave one file on disk, not `min(totalStoresSoFar, K) = 2`:
the second store overwrites the file named `checkpoint-0.pth.tar`. -/
theorem retention_duplicate_epoch_counterexample :
    (store_checkpoint 3 tE0 (store_checkpoint 3 tE0 [])).length = 1
    ∧ (store_checkpoint 3 tE0 (store_checkpoint 3 tE0 [])).length ≠ min 2 3 := by decide

/-- C5 counterexample: with `remember = 2`, history `[[0], [1]]` (epochs 1 and
2) and current raw prediction 2 at epoch 3, the reported prediction is
`(2 + 1) / 2 = 3/2`, not the claimed mean over `min(remember, epochsSoFar) = 2`
history entries plus the current one, `(2 + 1 + 0) / 3 = 1`: the loop
`range(lene - 1, lene - remember, -1)` reads only `remember - 1` entries once
the history is at capacity. -/
theorem smoothing_window_counterexample :
    reportedPred 3 2 [[0], [1]] 0 2 = 3 / 2
    ∧ reportedPred 3 2 [[0], [1]] 0 2 ≠ (2 + 1 + 0) / 3 := by
  constructor <;> norm_num [reportedPred, calc_pred, List.range_succ]

/-- C6 counterexample: with `remember = 1`, after two ensemble validation
passes `epoch_losses` holds 2 epochs, exceeding `remember` — no entry is ever
dropped. -/
theorem history_unbounded_counterexample :
    (updateHistory (updateHistory [] [(3 : ℚ)]) [4]).length = 2
    ∧ ¬ (updateHistory (updateHistory [] [(3 : ℚ)]) [4]).length ≤ 1 := by decide

/-- C8 counterexample: when hook 0 raises inside `on_train_failed` (error 7)
while the original error is 3, the error reaching the caller is 7 — the
original error is masked, not re-raised — and hook 1 is never notified: the
notification loop at lines 340-341 is not guarded by any handler. -/
theorem failure_mask_counterexample :
    (failPath [some 7, none] 3).1 ≠ 3
    ∧ (failPath [some 7, none] 3).2 ≠ [0, 1] := by decide

/-- C10 counterexample: with the stop flag set during `on_epoch_begin` of
epoch 1 and 3 requested epochs, training ends early (no `on_epoch_begin` for
epoch 2 occurs), yet `on_train_ends` and a final checkpoint store still run:
the `break` lands in the same end-of-training block as normal exhaustion, so
the block is not reserved for normal completion. -/
theorem train_ends_on_stop_counterexample :
    orcStop1.stopAtEpochBegin 1 = true
    ∧ Ev.epochBegin 2 ∉ (trainModel cfg1 orcStop1 3 { epoch := 0, step := 0, stop := false }).2
    ∧ Ev.trainEnds ∈ (trainModel cfg1 orcStop1 3 { epoch := 0, step := 0, stop := false }).2
    ∧ Ev.storeCkpt (trainModel cfg1 orcStop1 3 { epoch := 0, step := 0, stop := false }).1.epoch
        ∈ (trainModel cfg1 orcStop1 3 { epoch := 0, step := 0, stop := false }).2 := by decide

/-- C9: if a hook sets the stop flag during `on_epoch_begin` of epoch
`E = epoch + 1`, the epoch counter reverts to `E - 1` and the iteration's
trace contains no `on_batch_begin`, no model forward call and no optimizer
step for epoch `E` — the epoch body never runs. -/
theorem stop_at_epoch_begin (cfg : Cfg) (orc : Orc) (st : LoopSt)
    (h : orc.stopAtEpochBegin (st.epoch + 1) = true) :
    (epochIter cfg orc st).1.epoch = st.epoch
    ∧ (∀ b, Ev.batchBegin (st.epoch + 1) b ∉ (epochIter cfg orc st).2.1)
    ∧ (∀ b, Ev.forwardB (st.epoch + 1) b ∉ (epochIter cfg orc st).2.1)
    ∧ (∀ b, Ev.optStep (st.epoch + 1) b ∉ (epochIter cfg orc st).2.1)
    ∧ (epochIter cfg orc st).2.1 = [Ev.epochBegin (st.epoch + 1)] := by
  simp [epochIter, h]

/-- C9 witness: with a hook that stops at every `on_epoch_begin`, an
iteration starting at epoch 0 ends at epoch 0 with only the
`on_epoch_begin` event in its trace. -/
theorem stop_at_epoch_begin_witness :
    (epochIter cfg1 orcAlwaysStop { epoch := 0, step := 0, stop := false }).1.epoch = 0
    ∧ (epochIter cfg1 orcAlwaysStop { epoch := 0, step := 0, stop := false }).2.1
        = [Ev.epochBegin 1] := by
  have h := stop_at_epoch_begin cfg1 orcAlwaysStop { epoch := 0, step := 0, stop := false } rfl
  exact ⟨h.1, h.2.2.2.2⟩

end Schnet

namespace Schnet

/-- Folding the history update is plain concatenation. -/
theorem foldl_updateHistory (passes : List (List ℚ)) :
    ∀ acc, List.foldl updateHistory acc passes = acc ++ passes := by
  induction passes with
  | nil => intro acc; simp
  | cons p t ih =>
    intro acc
    simp only [List.foldl_cons, updateHistory, ih, List.append_assoc,
      List.singleton_append]

/-- C6 (amended): after each ensemble validation pass the epoch's raw
per-batch predictions are appended to `epoch_losses`, and nothing is ever
removed: after any sequence of passes the history is exactly the list of all
passes' raw predictions in order, so it grows without bound instead of being
capped at `remember` epochs (only `calc_pred`'s read window is bounded). -/
theorem history_append_only (passes : List (List ℚ)) :
    (∀ H bl, updateHistory H bl = H ++ [bl])
    ∧ List.foldl updateHistory [] passes = passes := by
  refine ⟨fun H bl => rfl, ?_⟩
  simpa using foldl_updateHistory passes []

/-- When every hook's `on_train_failed` returns normally, the notification
loop visits all of them in order and raises nothing itself. -/
theorem notifyGo_all_none :
    ∀ (hs : List (Option ℕ)) (i : ℕ), (∀ x ∈ hs, x = none) →
      notifyGo i hs = (none, List.range' i hs.length) := by
  intro hs
  induction hs with
  | nil => intro i _; rfl
  | cons x t ih =>
    intro i h
    have hx : x = none := h x (by simp)
    subst hx
    have ht : ∀ y ∈ t, y = none := fun y hy => h y (by simp [hy])
    simp [notifyGo, ih (i + 1) ht, List.range'_succ]

/-- C8 (amended): on an unhandled training error, provided no hook itself
raises inside `on_train_failed`, every registered hook is notified exactly
once in registration order and the original error is re-raised to the caller;
the failure is never silently absorbed.  (Errors raised by hooks during the
notification are NOT swallowed: they replace the original error and skip the
remaining hooks, as the counterexample shows.) -/
theorem failure_notification (hs : List (Option ℕ)) (orig : ℕ)
    (h : ∀ x ∈ hs, x = none) :
    failPath hs orig = (orig, List.range hs.length) := by
  simp [failPath, notifyFailed, notifyGo_all_none hs 0 h, List.range_eq_range']

/-- C8 witness: with two well-behaved hooks and original error 5, both hooks
are notified in order and error 5 propagates. -/
theorem failure_notification_witness :
    failPath [none, none] 5 = (5, [0, 1]) := by
  have h := failure_notification [none, none] 5 (by decide)
  rw [h]; decide

/-- The running-maximum scan returns the maximum of the remaining list and
the initial candidate. -/
theorem argmaxGo_snd :
    ∀ (xs : List ℚ) (cur bi : ℕ) (bv : ℚ),
      (argmaxGo xs cur (bi, bv)).2 = xs.foldl max bv := by
  intro xs
  induction xs with
  | nil => intro cur bi bv; rfl
  | cons x t ih =>
    intro cur bi bv
    by_cases h : bv < x
    · rw [List.foldl_cons, max_eq_right h.le]
      simpa [argmaxGo, h] using ih (cur + 1) cur x
    · rw [List.foldl_cons, max_eq_left (le_of_not_lt h)]
      simpa [argmaxGo, h] using ih (cur + 1) bi bv

/-- The running-maximum scan returns either the initial candidate or an
indexed element of the scanned list. -/
theorem argmaxGo_cases :
    ∀ (xs : List ℚ) (cur bi : ℕ) (bv : ℚ),
      argmaxGo xs cur (bi, bv) = (bi, bv)
      ∨ ∃ j, j < xs.length ∧ argmaxGo xs cur (bi, bv) = (cur + j, xs.get! j) := by
  intro xs
  induction xs with
  | nil => intro cur bi bv; exact Or.inl rfl
  | cons x t ih =>
    intro cur bi bv
    by_cases h : bv < x
    · rcases ih (cur + 1) cur x with h1 | ⟨j, hj, h2⟩
      · refine Or.inr ⟨0, by simp, ?_⟩
        simpa [argmaxGo, h] using h1
      · refine Or.inr ⟨j + 1, by simpa using hj, ?_⟩
        simp only [argmaxGo, if_pos h]
        rw [h2, List.get!_cons_succ]
        congr 1
        omega
    · rcases ih (cur + 1) bi bv with h1 | ⟨j, hj, h2⟩
      · refine Or.inl ?_
        simpa [argmaxGo, h] using h1
      · refine Or.inr ⟨j + 1, by simpa using hj, ?_⟩
        simp only [argmaxGo, if_neg h]
        rw [h2, List.get!_cons_succ]
        congr 1
        omega

/-- The initial value bounds a max-fold from below. -/
theorem foldl_max_init_le (xs : List ℚ) : ∀ a : ℚ, a ≤ xs.foldl max a := by
  induction xs with
  | nil => intro a; simp
  | cons x t ih =>
    intro a
    rw [List.foldl_cons]
    exact le_trans (le_max_left a x) (ih (max a x))

/-- Every member bounds a max-fold from below. -/
theorem foldl_max_mem_le (xs : List ℚ) :
    ∀ (a y : ℚ), y ∈ xs → y ≤ xs.foldl max a := by
  induction xs with
  | nil => intro a y hy; simp at hy
  | cons x t ih =>
    intro a y hy
    rw [List.foldl_cons]
    rcases List.mem_cons.mp hy with h1 | h1
    · subst h1
      exact le_trans (le_max_right a y) (foldl_max_init_le t (max a y))
    · exact ih (max a x) y h1

/-- `np.argmax` returns a valid index holding a maximal element. -/
theorem argmaxIdx_spec (x : ℚ) (xs : List ℚ) :
    argmaxIdx (x :: xs) < (x :: xs).length
    ∧ ∀ y ∈ x :: xs, y ≤ (x :: xs).get! (argmaxIdx (x :: xs)) := by
  have hsnd := argmaxGo_snd xs 1 0 x
  rcases argmaxGo_cases xs 1 0 x with h1 | ⟨j, hj, h2⟩
  · have hidx : argmaxIdx (x :: xs) = 0 := by simp [argmaxIdx, h1]
    have hval : (x :: xs).get! (argmaxIdx (x :: xs)) = xs.foldl max x := by
      rw [hidx, List.get!_cons_zero, ← hsnd, h1]
    refine ⟨by simp [hidx], ?_⟩
    intro y hy
    rw [hval]
    rcases List.mem_cons.mp hy with h | h
    · subst h; exact foldl_max_init_le xs y
    · exact foldl_max_mem_le xs x y h
  · have hidx : argmaxIdx (x :: xs) = 1 + j := by simp [argmaxIdx, h2]
    have hval : (x :: xs).get! (argmaxIdx (x :: xs)) = xs.foldl max x := by
      rw [hidx, Nat.add_comm, List.get!_cons_succ]
      have hx : xs.get! j = (argmaxGo xs 1 (0, x)).2 := by rw [h2]
      rw [hx, hsnd]
    refine ⟨by rw [hidx, List.length_cons]; omega, ?_⟩
    intro y hy
    rw [hval]
    rcases List.mem_cons.mp hy with h | h
    · subst h; exact foldl_max_init_le xs y
    · exact foldl_max_mem_le xs x y h

/-- C7: with `remember = K` and `len(best_losses) ≤ K` before a validation
pass, after the pass the length is still at most `K`; below capacity the new
validation loss is appended and the model persisted to the slot numbered by
the new length minus one; at capacity the `np.argmax` slot — which holds a
maximal loss — has its loss and persisted model replaced exactly when the new
validation loss is strictly lower, otherwise nothing changes and no model is
saved; and every slot other than the argmax slot is left untouched, so
existing slots are never reordered. -/
theorem best_losses_selection (K : ℕ) (bl : List ℚ) (v : ℚ) (hK : bl.length ≤ K) :
    (updateBest K bl v).1.length ≤ K
    ∧ (bl.length < K → updateBest K bl v = (bl ++ [v], some bl.length))
    ∧ (bl.length = K → 0 < K →
        (∀ y ∈ bl, y ≤ bl.get! (argmaxIdx bl))
        ∧ (bl.get! (argmaxIdx bl) > v →
            updateBest K bl v = (bl.set (argmaxIdx bl) v, some (argmaxIdx bl)))
        ∧ (¬ bl.get! (argmaxIdx bl) > v → updateBest K bl v = (bl, none))
        ∧ (∀ i, i ≠ argmaxIdx bl → (updateBest K bl v).1[i]? = bl[i]?)) := by
  refine ⟨?_, ?_, ?_⟩
  · by_cases hlt : bl.length < K
    · simp only [updateBest, if_pos hlt, List.length_append, List.length_singleton]
      omega
    · simp only [updateBest, if_neg hlt]
      by_cases hcmp : bl.get! (argmaxIdx bl) > v
      · rw [if_pos hcmp]
        simpa using hK
      · rw [if_neg hcmp]
        exact hK
  · intro hlt
    simp [updateBest, hlt]
  · intro hEq hPos
    have hlt : ¬ bl.length < K := by omega
    obtain ⟨x, xs, rfl⟩ : ∃ x xs, bl = x :: xs := by
      cases bl with
      | nil => rw [List.length_nil] at hEq; omega
      | cons x xs => exact ⟨x, xs, rfl⟩
    refine ⟨(argmaxIdx_spec x xs).2, ?_, ?_, ?_⟩
    · intro hcmp
      simp only [updateBest, if_neg hlt]
      rw [if_pos hcmp]
    · intro hcmp
      simp only [updateBest, if_neg hlt]
      rw [if_neg hcmp]
    · intro i hi
      simp only [updateBest, if_neg hlt]
      by_cases hcmp : (x :: xs).get! (argmaxIdx (x :: xs)) > v
      · rw [if_pos hcmp]
        exact List.getElem?_set_ne (Ne.symm hi)
      · rw [if_neg hcmp]

/-- C7 witness: at capacity (`remember = 1`, `best_losses = [5]`), a strictly
better loss 3 replaces slot 0. -/
theorem best_losses_selection_witness :
    updateBest 1 [(5 : ℚ)] 3 = ([3], some 0)
    ∧ (updateBest 1 [(5 : ℚ)] 3).1.length ≤ 1 := by
  have h := best_losses_selection 1 [(5 : ℚ)] 3 (by decide)
  have h2 := (h.2.2 (by decide) (by decide)).2.1 (by decide)
  exact ⟨by rw [h2]; rfl, h.1⟩

end Schnet

namespace Schnet

/-- Reading a list at descending indices `length - 1 - j` for `j < hc` is
taking the first `hc` entries of its reverse. -/
theorem range_map_get_reverse (H : List (List ℚ)) (hc : ℕ) (h : hc ≤ H.length) :
    (List.range hc).map (fun j => H.get! (H.length - 1 - j)) = H.reverse.take hc := by
  apply List.ext_getElem
  · simp [Nat.min_eq_left, h]
  · intro i h1 h2
    simp only [List.getElem_map, List.getElem_range, List.getElem_take,
      List.getElem_reverse]
    have hi : i < hc := by simpa using h1
    have hlt : H.length - 1 - i < H.length := by omega
    rw [List.get!_eq_getElem!, getElem!_pos H (H.length - 1 - i) hlt]

/-- C5 (amended): in ensemble mode epoch 1 reports the raw prediction
unchanged, and for every epoch at least 2 the reported prediction is the
arithmetic mean of the current raw prediction together with the raw
predictions recorded at this batch position in the most recent
`min(epochsSoFar, remember - 1)` completed epochs — `remember - 1`, not
`remember`, once the history reaches capacity. -/
theorem smoothing_formula (e : ℕ) (p : ℚ) (H : List (List ℚ)) (b r : ℕ) :
    reportedPred 1 p H b r = p
    ∧ (2 ≤ e →
        reportedPred e p H b r
          = (p :: (H.reverse.take (min H.length (r - 1))).map (fun l => l.get! b)).sum
            / ((p :: (H.reverse.take (min H.length (r - 1))).map (fun l => l.get! b)).length : ℚ)) := by
  constructor
  · simp [reportedPred]
  · intro he
    have hne : e ≠ 1 := by omega
    have hc_eq : (if H.length < r then H.length else r - 1) = min H.length (r - 1) := by
      by_cases hlt : H.length < r
      · rw [if_pos hlt, Nat.min_eq_left (by omega)]
      · rw [if_neg hlt, Nat.min_eq_right (by omega)]
    have hle : min H.length (r - 1) ≤ H.length := Nat.min_le_left _ _
    have hmap := range_map_get_reverse H (min H.length (r - 1)) hle
    simp only [reportedPred, if_neg hne, calc_pred, hc_eq]
    have hcomp : (List.range (min H.length (r - 1))).map
          (fun j => (H.get! (H.length - 1 - j)).get! b)
        = ((List.range (min H.length (r - 1))).map
            (fun j => H.get! (H.length - 1 - j))).map (fun l => l.get! b) := by
      rw [List.map_map]
      rfl
    rw [hcomp, hmap]

/-- C5 witness: with `remember = 2`, epoch-1 raw `3` and current raw `5`, the
epoch-1 report is `5` unchanged and the epoch-2 report is `(5 + 3) / 2 = 4`. -/
theorem smoothing_formula_witness :
    reportedPred 1 5 [[3]] 0 2 = 5 ∧ reportedPred 2 5 [[3]] 0 2 = 4 := by
  have h := smoothing_formula 2 5 [[3]] 0 2
  refine ⟨h.1, ?_⟩
  rw [h.2 (by norm_num)]
  norm_num

end Schnet

namespace Schnet

/-- On a list whose epochs are strictly descending, the retention filter keeps
exactly the first `k` entries. -/
theorem keepTop_sorted :
    ∀ (l : Disk) (k : ℕ), l.Pairwise (fun p q => q.1 < p.1) →
      l.filter (fun p => (l.filter (fun q => p.1 < q.1)).length < k) = l.take k := by
  intro l
  induction l with
  | nil => intro k _; rw [List.take_nil]; rfl
  | cons a t ih =>
    intro k hp
    have ha : ∀ q ∈ t, q.1 < a.1 := (List.pairwise_cons.mp hp).1
    have ht : t.Pairwise (fun p q => q.1 < p.1) := (List.pairwise_cons.mp hp).2
    match k with
    | 0 =>
      rw [List.take_zero, List.filter_eq_nil_iff]
      intro x _
      simp
    | k + 1 =>
      have hgt_a : (a :: t).filter (fun q => a.1 < q.1) = [] := by
        rw [List.filter_eq_nil_iff]
        intro q hq
        rcases List.mem_cons.mp hq with h | h
        · subst h; simp
        · have := ha q h
          simp only [decide_eq_true_eq]
          omega
      rw [List.filter_cons]
      have hPa : (decide (((a :: t).filter (fun q => a.1 < q.1)).length < k + 1)) = true := by
        rw [hgt_a]
        simp
      rw [if_pos hPa]
      congr 1
      have hcongr : ∀ x ∈ t,
          (decide (((a :: t).filter (fun q => x.1 < q.1)).length < k + 1))
          = (decide ((t.filter (fun q => x.1 < q.1)).length < k)) := by
        intro x hx
        have hxa : x.1 < a.1 := ha x hx
        rw [List.filter_cons, if_pos (by simpa using hxa)]
        rw [decide_eq_decide]
        rw [List.length_cons]
        omega
      rw [List.filter_congr hcongr]
      exact ih k ht

/-- Prepending to an already-truncated list and truncating again equals
truncating the un-truncated list. -/
theorem take_cons_take (x : ℕ × StateDict) (X : Disk) (k : ℕ) :
    (x :: X.take k).take k = (x :: X).take k := by
  cases k with
  | zero => rfl
  | succ k =>
    rw [List.take_succ_cons, List.take_succ_cons, List.take_take,
      Nat.min_eq_left (by omega)]

/-- One `store_checkpoint` call with `keepN ≥ 1` on a disk of strictly
smaller, distinct epochs prepends the new file and keeps the `keepN` highest
epochs. -/
theorem store_step (keepN : ℕ) (t : Trainer) (d : Disk) (hN : 1 ≤ keepN)
    (hd : d.Pairwise (fun p q => q.1 < p.1)) (hgt : ∀ p ∈ d, p.1 < t.epoch) :
    store_checkpoint keepN t d = ((t.epoch, state_dict t) :: d).take keepN := by
  have hw : writeCkpt d t.epoch (state_dict t) = (t.epoch, state_dict t) :: d := by
    unfold writeCkpt
    congr 1
    rw [List.filter_eq_self]
    intro p hp
    simpa using Nat.ne_of_lt (hgt p hp)
  unfold store_checkpoint
  rw [hw]
  unfold pruneCkpts
  by_cases hlen : keepN < ((t.epoch, state_dict t) :: d).length
  · rw [if_pos hlen, if_neg (by omega : ¬ keepN = 0)]
    exact keepTop_sorted _ keepN (List.pairwise_cons.mpr ⟨fun q hq => hgt q hq, hd⟩)
  · rw [if_neg hlen, List.take_of_length_le (by omega)]

/-- Invariant of a run of stores at strictly increasing epochs: the disk holds
exactly the `keepN` most recent (hence highest-epoch) checkpoints. -/
theorem runStores_go (keepN : ℕ) (hN : 1 ≤ keepN) :
    ∀ (ts seen : List Trainer),
      ((seen ++ ts).map Trainer.epoch).Pairwise (· < ·) →
      runStores keepN ts
          (((seen.map (fun s => (s.epoch, state_dict s))).reverse).take keepN)
        = (((seen ++ ts).map (fun s => (s.epoch, state_dict s))).reverse).take keepN := by
  intro ts
  induction ts with
  | nil => intro seen _; simp [runStores]
  | cons t ts ih =>
    intro seen h
    have hmaps : ((seen.map Trainer.epoch) ++ ((t :: ts).map Trainer.epoch)).Pairwise (· < ·) := by
      rwa [← List.map_append]
    obtain ⟨hseen, _, hcross⟩ := List.pairwise_append.mp hmaps
    have hdp : ((seen.map (fun s => (s.epoch, state_dict s))).reverse.take keepN).Pairwise
        (fun p q : ℕ × StateDict => q.1 < p.1) := by
      apply List.Pairwise.sublist (List.take_sublist _ _)
      rw [List.pairwise_reverse, List.pairwise_map]
      rw [List.pairwise_map] at hseen
      exact hseen
    have hgt : ∀ p ∈ (seen.map (fun s => (s.epoch, state_dict s))).reverse.take keepN,
        p.1 < t.epoch := by
      intro p hp
      have hp2 := (List.take_sublist _ _).subset hp
      rw [List.mem_reverse] at hp2
      obtain ⟨s, hs, rfl⟩ := List.mem_map.mp hp2
      exact hcross s.epoch (List.mem_map_of_mem _ hs) t.epoch (by simp)
    have hstep := store_step keepN t _ hN hdp hgt
    have hri : runStores keepN (t :: ts)
        ((seen.map (fun s => (s.epoch, state_dict s))).reverse.take keepN)
        = runStores keepN ts (store_checkpoint keepN t
            ((seen.map (fun s => (s.epoch, state_dict s))).reverse.take keepN)) := rfl
    rw [hri, hstep, take_cons_take]
    have hcons : (t.epoch, state_dict t) ::
          (seen.map (fun s => (s.epoch, state_dict s))).reverse
        = ((seen ++ [t]).map (fun s => (s.epoch, state_dict s))).reverse := by
      rw [List.map_append, List.reverse_append]
      rfl
    rw [hcons]
    have hih := ih (seen ++ [t]) (by rw [List.append_assoc]; simpa using h)
    rw [hih, List.append_assoc]
    rfl

/-- With `keep_n_checkpoints = 0` a prune is a no-op: Python's `[:-0]` is the
empty slice, so no file is removed. -/
theorem pruneCkpts_zero (d : Disk) : pruneCkpts 0 d = d := by
  unfold pruneCkpts
  split <;> rfl

/-- With `keep_n_checkpoints = 0`, a run of stores at strictly increasing
epochs accumulates every checkpoint: each call only adds the new file. -/
theorem runStores_zero :
    ∀ (ts : List Trainer) (d : Disk),
      (∀ t ∈ ts, ∀ p ∈ d, p.1 < t.epoch) →
      ((ts.map Trainer.epoch).Pairwise (· < ·)) →
      runStores 0 ts d
        = ((ts.map (fun t => (t.epoch, state_dict t))).reverse) ++ d := by
  intro ts
  induction ts with
  | nil => intro d _ _; simp [runStores]
  | cons t ts ih =>
    intro d hgt hp
    have hp2 : (t.epoch :: ts.map Trainer.epoch).Pairwise (· < ·) := by
      simpa using hp
    have hw : writeCkpt d t.epoch (state_dict t) = (t.epoch, state_dict t) :: d := by
      unfold writeCkpt
      congr 1
      rw [List.filter_eq_self]
      intro p hpd
      simpa using Nat.ne_of_lt (hgt t (by simp) p hpd)
    have hstore : store_checkpoint 0 t d = (t.epoch, state_dict t) :: d := by
      unfold store_checkpoint
      rw [hw, pruneCkpts_zero]
    have hhead : ∀ b ∈ ts.map Trainer.epoch, t.epoch < b :=
      (List.pairwise_cons.mp hp2).1
    have hgt2 : ∀ t' ∈ ts, ∀ p ∈ (t.epoch, state_dict t) :: d, p.1 < t'.epoch := by
      intro t' ht' p hpm
      have hte : t.epoch < t'.epoch := hhead t'.epoch (List.mem_map_of_mem _ ht')
      rcases List.mem_cons.mp hpm with h | h
      · subst h; exact hte
      · exact lt_trans (hgt t (by simp) p h) hte
    have hri : runStores 0 (t :: ts) d = runStores 0 ts (store_checkpoint 0 t d) := rfl
    rw [hri, hstore,
      ih ((t.epoch, state_dict t) :: d) hgt2 (List.pairwise_cons.mp hp2).2]
    simp

/-- C3 (amended): for stores at strictly increasing (hence pairwise distinct)
epochs — as during a run, where the epoch counter only grows — and any
retention bound `keepN ≥ 1`, after the sequence of `store_checkpoint` calls
the disk holds exactly the `min(storesSoFar, keepN)` checkpoints with the
highest epochs (the most recent `keepN`); with `keep_n_checkpoints = 0` the
prune slice `[:-0]` is empty, so nothing is ever deleted and every stored
checkpoint remains on disk; and every call writes the new checkpoint file
before pruning (`store_checkpoint` is definitionally prune-after-write, and
the new file is present in the write phase).  The original claim's count
`min(totalStoresSoFar, K)` also fails when an epoch is stored twice, since the
second store overwrites the same file name. -/
theorem retention_keeps_highest (keepN : ℕ) (ts : List Trainer)
    (hinc : (ts.map Trainer.epoch).Pairwise (· < ·)) :
    (1 ≤ keepN →
      runStores keepN ts []
        = ((ts.map (fun t => (t.epoch, state_dict t))).reverse).take keepN
      ∧ (runStores keepN ts []).length = min ts.length keepN)
    ∧ runStores 0 ts [] = (ts.map (fun t => (t.epoch, state_dict t))).reverse
    ∧ (∀ (t : Trainer) (d : Disk),
        store_checkpoint keepN t d
          = pruneCkpts keepN (writeCkpt d t.epoch (state_dict t))
        ∧ (t.epoch, state_dict t) ∈ writeCkpt d t.epoch (state_dict t)) := by
  refine ⟨?_, ?_, ?_⟩
  · intro hN
    have h0 := runStores_go keepN hN ts [] (by simpa using hinc)
    have hmain : runStores keepN ts []
        = ((ts.map (fun t => (t.epoch, state_dict t))).reverse).take keepN := by
      simpa using h0
    refine ⟨hmain, ?_⟩
    rw [hmain, List.length_take, List.length_reverse, List.length_map, Nat.min_comm]
  · simpa using runStores_zero ts [] (by simp) hinc
  · intro t d
    exact ⟨rfl, List.mem_cons_self _ _⟩

/-- C3 witness: storing at epochs 1 then 2 with `keep_n_checkpoints = 1`
retains exactly the epoch-2 checkpoint. -/
theorem retention_keeps_highest_witness :
    (runStores 1 [t0ck, tRun] []).length = 1
    ∧ runStores 1 [t0ck, tRun] [] = [(2, state_dict tRun)] := by
  have h := (retention_keeps_highest 1 [t0ck, tRun] (by decide)).1 (by decide)
  refine ⟨by rw [h.2]; rfl, by rw [h.1]; rfl⟩

end Schnet

namespace Schnet

/-- Stepping a counter modulo `A`: the successor either completes a window
(remainder resets to zero) or advances the remainder by one. -/
theorem succ_mod_dichotomy (A k : ℕ) (hA : 1 ≤ A) :
    ((k + 1) % A = 0 ∧ k % A + 1 = A) ∨ ((k + 1) % A = k % A + 1 ∧ k % A + 1 < A) := by
  have hlt : k % A < A := Nat.mod_lt _ hA
  have hdm : A * (k / A) + k % A = k := Nat.div_add_mod k A
  by_cases hc : k % A + 1 = A
  · left
    refine ⟨?_, hc⟩
    have hk1 : k + 1 = A * (k / A + 1) := by
      rw [Nat.mul_add, Nat.mul_one]
      omega
    rw [hk1]
    exact Nat.mul_mod_right A _
  · right
    have hc2 : k % A + 1 < A := by omega
    refine ⟨?_, hc2⟩
    have hk1 : k + 1 = A * (k / A) + (k % A + 1) := by omega
    rw [hk1, Nat.mul_add_mod, Nat.mod_eq_of_lt hc2]

/-- The multiples of `A` among `1..n` number `n / A`. -/
theorem count_multiples (A : ℕ) :
    ∀ n : ℕ, ((List.range' 1 n).filter (fun x => decide (x % A = 0))).length = n / A := by
  intro n
  induction n with
  | zero => simp
  | succ m ih =>
    have hlast : (1 + 1 * m) = m + 1 := by omega
    rw [List.range'_concat, hlast, List.filter_append, List.length_append, ih, Nat.succ_div]
    by_cases hd : (m + 1) % A = 0
    · simp [hd, Nat.dvd_iff_mod_eq_zero]
    · simp [hd, Nat.dvd_iff_mod_eq_zero]

/-- Full or partial accumulation windows in an epoch of `B` batches:
`B / A` full windows plus one partial window when `A` does not divide `B`. -/
theorem count_windows (A B : ℕ) :
    ((List.range' 1 B).filter (fun x => decide (x % A = 0) || decide (x = B))).length
      = B / A + if B % A = 0 then 0 else 1 := by
  cases B with
  | zero => simp
  | succ m =>
    have hlast : (1 + 1 * m) = m + 1 := by omega
    rw [List.range'_concat, hlast, List.filter_append, List.length_append]
    have hpre : (List.range' 1 m).filter
          (fun x => decide (x % A = 0) || decide (x = m + 1))
        = (List.range' 1 m).filter (fun x => decide (x % A = 0)) := by
      apply List.filter_congr
      intro x hx
      have hxm : x < 1 + m := (List.mem_range'_1.mp hx).2
      have hne : x ≠ m + 1 := by omega
      simp [hne]
    rw [hpre, count_multiples A m]
    have hlast2 : ((List.filter (fun x => decide (x % A = 0) || decide (x = m + 1))
        [m + 1])).length = 1 := by simp
    rw [hlast2, Nat.succ_div]
    by_cases hd : (m + 1) % A = 0
    · simp only [if_pos hd, if_pos (Nat.dvd_iff_mod_eq_zero.mpr hd)]
    · simp only [if_neg hd, if_neg (fun hc => hd (Nat.dvd_iff_mod_eq_zero.mp hc))]

/-- Closed form of the batch loop on a suffix of the epoch, with the
accumulation counter at its loop invariant `(b - 1) % A`. -/
theorem batchGo_spec (A B e : ℕ) (hA : 1 ≤ A) :
    ∀ (n b : ℕ) (st : LoopSt), 1 ≤ b → b + n = B + 1 →
      batchGo A B e (fun _ => false) (List.range' b n) ((b - 1) % A) st
        = ({ st with step := st.step + ((List.range' b n).filter
              (fun x => decide (x % A = 0) || decide (x = B))).length },
           concatMap (fun x =>
             [Ev.batchBegin e x, Ev.forwardB e x]
             ++ (if x % A = 0 ∨ x = B
                 then [Ev.optStep e x, Ev.stepInc e x, Ev.batchEnd e x, Ev.resetAcc e x]
                 else [])) (List.range' b n)) := by
  intro n
  induction n with
  | zero =>
    intro b st hb hyp
    simp [batchGo, concatMap]
  | succ m ih =>
    intro b st hb hyp
    have hb1 : b - 1 + 1 = b := by omega
    have hiff : ((b - 1) % A + 1 = A) ↔ (b % A = 0) := by
      obtain ⟨h1, h2⟩ | ⟨h1, h2⟩ := succ_mod_dichotomy A (b - 1) hA
      · rw [hb1] at h1
        constructor <;> intro h <;> omega
      · rw [hb1] at h1
        have hAlt : b % A < A := Nat.mod_lt _ hA
        constructor <;> intro h <;> omega
    rw [List.range'_succ]
    simp only [batchGo]
    by_cases hcond : b % A = 0 ∨ b = B
    · have hcond2 : (b - 1) % A + 1 = A ∨ b = B := by
        rcases hcond with h | h
        · exact Or.inl (hiff.mpr h)
        · exact Or.inr h
      rw [if_pos hcond2]
      simp only [Bool.false_eq_true, if_false]
      have hcnt : ((b :: List.range' (b + 1) m).filter
            (fun x => decide (x % A = 0) || decide (x = B))).length
          = ((List.range' (b + 1) m).filter
              (fun x => decide (x % A = 0) || decide (x = B))).length + 1 := by
        rw [List.filter_cons]
        rcases hcond with h | h
        · simp [h]
        · simp [h]
      rw [hcnt]
      by_cases hm : b % A = 0
      · have hrec := ih (b + 1) { st with step := st.step + 1 } (by omega) (by omega)
        rw [Nat.add_sub_cancel, hm] at hrec
        rw [hrec]
        have harith : ({ st with step := st.step + 1 } : LoopSt).step
            + ((List.range' (b + 1) m).filter
                (fun x => decide (x % A = 0) || decide (x = B))).length
            = st.step + (((List.range' (b + 1) m).filter
                (fun x => decide (x % A = 0) || decide (x = B))).length + 1) := by
          show st.step + 1 + _ = _
          omega
        rw [harith]
        congr 1
        simp [concatMap, hcond]
      · have hbB : b = B := by tauto
        have hm0 : m = 0 := by omega
        subst hm0
        subst hbB
        simp [batchGo, concatMap, hcond]
    · have hcond2 : ¬((b - 1) % A + 1 = A ∨ b = B) := by
        rw [hiff]
        exact hcond
      rw [if_neg hcond2]
      have hm : ¬ b % A = 0 := fun h => hcond (Or.inl h)
      have hbB : ¬ b = B := fun h => hcond (Or.inr h)
      have hsn : (b - 1) % A + 1 = b % A := by
        obtain ⟨h1, h2⟩ | ⟨h1, h2⟩ := succ_mod_dichotomy A (b - 1) hA
        · rw [hb1] at h1
          omega
        · rw [hb1] at h1
          omega
      rw [hsn]
      have hrec := ih (b + 1) st (by omega) (by omega)
      rw [Nat.add_sub_cancel] at hrec
      rw [hrec]
      have hcnt : ((b :: List.range' (b + 1) m).filter
            (fun x => decide (x % A = 0) || decide (x = B))).length
          = ((List.range' (b + 1) m).filter
              (fun x => decide (x % A = 0) || decide (x = B))).length := by
        rw [List.filter_cons]
        simp [hm, hbB]
      rw [hcnt]
      congr 1
      simp [concatMap, hcond]

/-- C4: in an epoch of `B` batches with `n_acc_steps = A ≥ 1` and no stop
request, the batch-loop trace is exactly: for each batch `b` from 1 to `B`,
`on_batch_begin` and the forward/backward pass, followed by an optimizer step
— `optimizer.step()`, the step-counter increment, `on_batch_end` on the hooks,
and the loss/gradient reset — precisely when `A` consecutive batches have been
accumulated (`b % A = 0`) or `b` is the last batch of the epoch; and the
number of optimizer updates is `B / A` plus one for a trailing partial window,
i.e. exactly one update per full or partial accumulation window, never a
dropped partial window. -/
theorem accumulation_schedule (A B e : ℕ) (st : LoopSt) (hA : 1 ≤ A) :
    batchGo A B e (fun _ => false) (List.range' 1 B) 0 st
      = ({ st with step := st.step + (B / A + if B % A = 0 then 0 else 1) },
         concatMap (fun x =>
           [Ev.batchBegin e x, Ev.forwardB e x]
           ++ (if x % A = 0 ∨ x = B
               then [Ev.optStep e x, Ev.stepInc e x, Ev.batchEnd e x, Ev.resetAcc e x]
               else [])) (List.range' 1 B)) := by
  have h := batchGo_spec A B e hA B 1 st (by omega) (by omega)
  rw [show ((1 : ℕ) - 1) % A = 0 by simp] at h
  rw [h, count_windows]

/-- C4 witness: 7 batches with accumulation 3 yield 3 optimizer updates
(two full windows and the flushed partial window). -/
theorem accumulation_schedule_witness :
    (batchGo 3 7 1 (fun _ => false) (List.range' 1 7) 0
        { epoch := 1, step := 0, stop := false }).1.step = 3 := by
  have h := accumulation_schedule 3 7 1 { epoch := 1, step := 0, stop := false } (by decide)
  rw [h]
  decide

end Schnet

namespace Schnet

/-- The batch loop never emits the end-of-training hook event. -/
theorem trainEnds_not_batchGo (A B e : ℕ) (stopO : ℕ → Bool) :
    ∀ (l : List ℕ) (sn : ℕ) (st : LoopSt),
      Ev.trainEnds ∉ (batchGo A B e stopO l sn st).2 := by
  intro l
  induction l with
  | nil => intro sn st; simp [batchGo]
  | cons b rest ih =>
    intro sn st
    simp only [batchGo]
    by_cases h1 : sn + 1 = A ∨ b = B
    · rw [if_pos h1]
      by_cases h2 : stopO b = true
      · simp [h2]
      · simp [h2, ih]
    · rw [if_neg h1]
      simp [ih]

/-- An epoch iteration never emits the end-of-training hook event. -/
theorem trainEnds_not_epochIter (cfg : Cfg) (orc : Orc) (st : LoopSt) :
    Ev.trainEnds ∉ (epochIter cfg orc st).2.1 := by
  unfold epochIter
  by_cases h : orc.stopAtEpochBegin (st.epoch + 1) = true
  · simp [h]
  · simp only [h, if_false, Bool.false_eq_true]
    split_ifs with h1 h2 <;> simp [trainEnds_not_batchGo]

/-- The epoch loop never emits the end-of-training hook event. -/
theorem trainEnds_not_trainLoop (cfg : Cfg) (orc : Orc) :
    ∀ (n : ℕ) (st : LoopSt), Ev.trainEnds ∉ (trainLoop cfg orc n st).2 := by
  intro n
  induction n with
  | zero => intro st; simp [trainLoop]
  | succ m ih =>
    intro st
    simp only [trainLoop]
    by_cases h : (epochIter cfg orc st).2.2 = true
    · rw [if_pos h]
      exact trainEnds_not_epochIter cfg orc st
    · rw [if_neg h]
      simp [trainEnds_not_epochIter cfg orc st, ih]

/-- C10 (amended): whenever `train` terminates without an exception — whether
the epoch range was exhausted or the stop flag broke out of the loop early —
the trace ends with `on_train_ends` on all hooks followed by exactly one final
checkpoint store at the current epoch, and `on_train_ends` occurs nowhere
earlier; it is only the exception path that skips this block. -/
theorem end_of_training_block (cfg : Cfg) (orc : Orc) (nEpochs : ℕ) (st : LoopSt) :
    ∃ p, (trainModel cfg orc nEpochs st).2
        = p ++ [Ev.trainEnds, Ev.storeCkpt (trainModel cfg orc nEpochs st).1.epoch]
      ∧ Ev.trainEnds ∉ p := by
  refine ⟨Ev.trainBegin ::
    (trainLoop cfg orc nEpochs { epoch := st.epoch, step := st.step, stop := false }).2,
    ?_, ?_⟩
  · rfl
  · simp [trainEnds_not_trainLoop]

end Schnet
